import Mathlib

/-!
Shallow embedding of the kora-personal core: the track-identity canonicalizer
(`UniversalTrackIdentifier`), the per-track aggregate (`TrackNode`), and the
streaming-history filter (`SpotifyStreamingHistoryProcessor`).  JS strings are
modelled as `List Char`; JS numbers (which may be `NaN` or infinite) as an
inductive `JSNumber`; absent (`null`/`undefined`) values as `Option`.
-/

namespace Kora

/-- The character class matched by the JS regex `\s` (and removed by
`String.prototype.trim`): space, the ASCII control whitespace, NBSP, Ogham
space mark, the U+2000–U+200A range, line/paragraph separators, narrow NBSP,
medium mathematical space, ideographic space, and the BOM. -/
def jsWs (c : Char) : Bool :=
  c.toNat == 32 || c.toNat == 9 || c.toNat == 10 || c.toNat == 11 ||
  c.toNat == 12 || c.toNat == 13 || c.toNat == 0xa0 || c.toNat == 0x1680 ||
  (0x2000 ≤ c.toNat && c.toNat ≤ 0x200a) || c.toNat == 0x2028 ||
  c.toNat == 0x2029 || c.toNat == 0x202f || c.toNat == 0x205f ||
  c.toNat == 0x3000 || c.toNat == 0xfeff

/-- Characters in the ranges `a`–`z` and `0`–`9`. -/
def isLowerAlnum (c : Char) : Bool :=
  (97 ≤ c.toNat && c.toNat ≤ 122) || (48 ≤ c.toNat && c.toNat ≤ 57)

/-- The allow-list of the normalizer regex `[^a-z0-9\s]`: a character
survives the replacement step iff it is a lowercase ASCII letter, an ASCII
digit, or whitespace. -/
def isAllowed (c : Char) : Bool := isLowerAlnum c || jsWs c

/-- `.replace(/[^a-z0-9\s]/g, ' ')`: every disallowed character becomes a
single space. -/
def replaceSpecial (l : List Char) : List Char :=
  l.map (fun c => if isAllowed c then c else ' ')

/-- `.replace(/\s+/g, ' ')`: each maximal run of whitespace collapses to one
space (all characters of the run but the last are dropped; the last emits
`' '`). -/
def collapseWs : List Char → List Char
  | [] => []
  | c :: rest =>
    if jsWs c then
      if rest.head?.any jsWs then collapseWs rest else ' ' :: collapseWs rest
    else c :: collapseWs rest

/-- `.trim()`: drop leading and trailing whitespace. -/
def trimChars (l : List Char) : List Char :=
  ((l.dropWhile jsWs).reverse.dropWhile jsWs).reverse

/-- The normalization pipeline applied to a non-empty string:
lowercase (ASCII-ordinal, as the spec documents), replace disallowed
characters with spaces, collapse whitespace runs, trim. -/
def normalizeCore (l : List Char) : List Char :=
  trimChars (collapseWs (replaceSpecial (l.map Char.toLower)))

/-- `UniversalTrackIdentifier.normalizeString`: `null`/`undefined` and the
empty string (all falsy) yield `""`; otherwise the pipeline runs. -/
def normalizeString : Option (List Char) → List Char
  | none => []
  | some l => if l = [] then [] else normalizeCore l

/-- The `TrackMetadata` interface: `artist` and `title` are strings, `album`
is optional. -/
structure TrackMetadata where
  artist : List Char
  title : List Char
  album : Option (List Char)

/-- JS `x || ''` on an optional string: absent becomes empty. -/
def jsOrEmpty : Option (List Char) → List Char
  | none => []
  | some l => l

/-- The two-character delimiter `"::"`. -/
def delim : List Char := [':', ':']

/-- `UniversalTrackIdentifier.generateTrackId`: normalize the three fields
(`album` defaulted through `|| ''`) and join them with `"::"`. -/
def generateTrackId (m : TrackMetadata) : List Char :=
  normalizeString (some m.artist) ++ delim ++ normalizeString (some m.title) ++
    delim ++ normalizeString (some (jsOrEmpty m.album))

/-- JS `String.prototype.split("::")`: cut at each leftmost occurrence of the
two-character delimiter. -/
def splitOnDD : List Char → List (List Char)
  | [] => [[]]
  | [c] => [[c]]
  | c1 :: c2 :: rest =>
    if c1 = ':' ∧ c2 = ':' then [] :: splitOnDD rest
    else
      match splitOnDD (c2 :: rest) with
      | [] => [[c1]]
      | h :: t => (c1 :: h) :: t

/-- The `ParsedTrackId` record as `parseTrackId` actually returns it: all
three components are strings (missing segments become `""`). -/
structure ParsedTrackId where
  artist : List Char
  title : List Char
  album : List Char
deriving DecidableEq

/-- `UniversalTrackIdentifier.parseTrackId`: split on `"::"`; segment 0 is the
artist, segment 1 the title, segment 2 the album; missing segments default to
`""` via `|| ''`. -/
def parseTrackId (trackId : List Char) : ParsedTrackId :=
  { artist := (splitOnDD trackId).getD 0 []
    title := (splitOnDD trackId).getD 1 []
    album := (splitOnDD trackId).getD 2 [] }

/-- A field of an untrusted JS object: a string, some non-string value, or
absent (`undefined`). -/
inductive JSField where
  | str (s : List Char)
  | nonStr
  | absent
deriving DecidableEq

/-- An untrusted JS object with the three metadata field slots. -/
structure JSRecord where
  artist : JSField
  title : JSField
  album : JSField

/-- An untrusted JS value handed to `safeGenerateTrackId`: an object, or
anything that fails the `typeof metadata === 'object' && metadata !== null`
test. -/
inductive JSMetaInput where
  | obj (r : JSRecord)
  | nonObj

/-- `UniversalTrackIdentifier.isValidMetadata`: a non-null object whose
`artist` and `title` are strings and whose `album` is a string or absent. -/
def isValidMetadata : JSMetaInput → Bool
  | .obj r =>
    (match r.artist with | .str _ => true | _ => false) &&
    (match r.title with | .str _ => true | _ => false) &&
    (match r.album with | .str _ => true | .absent => true | .nonStr => false)
  | .nonObj => false

/-- Read a string field (only used once validation has succeeded). -/
def fieldStr : JSField → List Char
  | .str s => s
  | _ => []

/-- Read an optional string field (only used once validation has
succeeded). -/
def fieldStrOpt : JSField → Option (List Char)
  | .str s => some s
  | _ => none

/-- `UniversalTrackIdentifier.safeGenerateTrackId`: `null` unless
`isValidMetadata` accepts, else delegate to `generateTrackId`. -/
def safeGenerateTrackId (v : JSMetaInput) : Option (List Char) :=
  if isValidMetadata v then
    match v with
    | .obj r =>
      some (generateTrackId ⟨fieldStr r.artist, fieldStr r.title, fieldStrOpt r.album⟩)
    | .nonObj => none
  else none

/-! ### Character-set facts about the normalizer -/

/-- A lowercase-alphanumeric character is not whitespace. -/
lemma isLowerAlnum_not_ws {c : Char} (h : isLowerAlnum c = true) : jsWs c = false := by
  simp only [isLowerAlnum, Bool.or_eq_true, Bool.and_eq_true, decide_eq_true_eq] at h
  simp only [jsWs, Bool.or_eq_false_iff, beq_eq_false_iff_ne, ne_eq,
    Bool.and_eq_false_iff, decide_eq_false_iff_not, not_le]
  omega

/-- Every character of `replaceSpecial l` is on the allow-list. -/
lemma mem_replaceSpecial {c : Char} {l : List Char} (h : c ∈ replaceSpecial l) :
    isAllowed c = true := by
  simp only [replaceSpecial, List.mem_map] at h
  obtain ⟨a, _, ha⟩ := h
  by_cases hA : isAllowed a = true
  · rw [if_pos hA] at ha; exact ha ▸ hA
  · rw [if_neg hA] at ha; subst ha; decide

/-- Every character of `collapseWs l` is a space or a non-whitespace character
of `l`. -/
lemma mem_collapseWs {l : List Char} {c : Char} (h : c ∈ collapseWs l) :
    c = ' ' ∨ (c ∈ l ∧ jsWs c = false) := by
  induction l with
  | nil => simp [collapseWs] at h
  | cons a rest ih =>
    simp only [collapseWs] at h
    by_cases hws : jsWs a = true
    · rw [if_pos hws] at h
      by_cases hnx : rest.head?.any jsWs = true
      · rw [if_pos hnx] at h
        rcases ih h with h1 | ⟨h1, h2⟩
        · exact Or.inl h1
        · exact Or.inr ⟨List.mem_cons_of_mem _ h1, h2⟩
      · rw [if_neg hnx] at h
        rcases List.mem_cons.mp h with h1 | h1
        · exact Or.inl h1
        · rcases ih h1 with h2 | ⟨h2, h3⟩
          · exact Or.inl h2
          · exact Or.inr ⟨List.mem_cons_of_mem _ h2, h3⟩
    · rw [if_neg hws] at h
      rcases List.mem_cons.mp h with h1 | h1
      · subst h1
        exact Or.inr ⟨List.mem_cons_self _ _, Bool.eq_false_iff.mpr hws⟩
      · rcases ih h1 with h2 | ⟨h2, h3⟩
        · exact Or.inl h2
        · exact Or.inr ⟨List.mem_cons_of_mem _ h2, h3⟩

/-- `trimChars` only removes characters. -/
lemma mem_trimChars {l : List Char} {c : Char} (h : c ∈ trimChars l) : c ∈ l := by
  unfold trimChars at h
  rw [List.mem_reverse] at h
  have hsfx1 : (l.dropWhile jsWs).reverse.dropWhile jsWs <:+ (l.dropWhile jsWs).reverse :=
    List.dropWhile_suffix jsWs
  have h2 := (hsfx1.sublist).mem h
  rw [List.mem_reverse] at h2
  have hsfx2 : l.dropWhile jsWs <:+ l := List.dropWhile_suffix jsWs
  exact (hsfx2.sublist).mem h2

/-- Every character of a normalized string is a lowercase ASCII letter, an
ASCII digit, or a single space. -/
lemma mem_normalizeCore {l : List Char} {c : Char} (h : c ∈ normalizeCore l) :
    isLowerAlnum c = true ∨ c = ' ' := by
  unfold normalizeCore at h
  have h1 := mem_trimChars h
  rcases mem_collapseWs h1 with h2 | ⟨h2, h3⟩
  · exact Or.inr h2
  · have h4 := mem_replaceSpecial h2
    simp only [isAllowed, Bool.or_eq_true] at h4
    rcases h4 with h5 | h5
    · exact Or.inl h5
    · rw [h5] at h3; cases h3

/-- The colon never survives normalization. -/
lemma not_colon_mem_normalizeString (s : Option (List Char)) :
    ':' ∉ normalizeString s := by
  intro hc
  match s with
  | none => simp [normalizeString] at hc
  | some l =>
    simp only [normalizeString] at hc
    by_cases hl : l = []
    · rw [if_pos hl] at hc; cases hc
    · rw [if_neg hl] at hc
      rcases mem_normalizeCore hc with h | h
      · simp [isLowerAlnum] at h
      · cases h

/-! ### Whitespace-run structure of the normalizer output -/

/-- The "no two adjacent whitespace characters" relation. -/
def noWsPair (a b : Char) : Prop := jsWs a = false ∨ jsWs b = false

/-- If a string starts with a non-whitespace character, `collapseWs` keeps
that character. -/
lemma collapseWs_cons_not_ws {x : Char} {t : List Char} (hx : jsWs x = false) :
    collapseWs (x :: t) = x :: collapseWs t := by
  simp only [collapseWs]
  rw [if_neg (by simp [hx])]

/-- The output of `collapseWs` never has two adjacent whitespace
characters. -/
lemma chain_collapseWs (l : List Char) : (collapseWs l).Chain' noWsPair := by
  induction l with
  | nil => simp [collapseWs]
  | cons a rest ih =>
    simp only [collapseWs]
    by_cases hws : jsWs a = true
    · rw [if_pos hws]
      by_cases hnx : rest.head?.any jsWs = true
      · rw [if_pos hnx]; exact ih
      · rw [if_neg hnx]
        rw [List.chain'_cons']
        refine ⟨?_, ih⟩
        intro y hy
        cases rest with
        | nil => simp [collapseWs] at hy
        | cons b t =>
          have hb : jsWs b = false := by
            simp only [List.head?_cons, Option.any_some] at hnx
            exact Bool.eq_false_iff.mpr hnx
          rw [collapseWs_cons_not_ws hb] at hy
          simp only [List.head?_cons, Option.mem_def, Option.some_inj] at hy
          subst hy
          exact Or.inr hb
    · rw [if_neg hws]
      rw [List.chain'_cons']
      exact ⟨fun y _ => Or.inl (Bool.eq_false_iff.mpr hws), ih⟩

/-- `noWsPair` chains are stable under list reversal. -/
lemma chain_noWsPair_reverse {l : List Char} :
    l.reverse.Chain' noWsPair ↔ l.Chain' noWsPair := by
  rw [List.chain'_reverse]
  constructor
  · exact fun h => h.imp fun a b hab => hab.symm
  · exact fun h => h.imp fun a b hab => hab.symm

/-- `trimChars` preserves the no-adjacent-whitespace property. -/
lemma chain_trimChars {l : List Char} (h : l.Chain' noWsPair) :
    (trimChars l).Chain' noWsPair := by
  unfold trimChars
  have h1 : (l.dropWhile jsWs).Chain' noWsPair :=
    h.suffix (List.dropWhile_suffix jsWs)
  have h2 : ((l.dropWhile jsWs).reverse).Chain' noWsPair :=
    chain_noWsPair_reverse.mpr h1
  have h3 : (((l.dropWhile jsWs).reverse).dropWhile jsWs).Chain' noWsPair :=
    h2.suffix (List.dropWhile_suffix jsWs)
  exact chain_noWsPair_reverse.mpr h3

/-- The head of `dropWhile jsWs` is not whitespace. -/
lemma head_dropWhile_ws {l : List Char} {c : Char}
    (h : (l.dropWhile jsWs).head? = some c) : jsWs c = false := by
  have h2 := List.head?_dropWhile_not jsWs l
  rw [h] at h2
  exact h2

/-- The last character of `trimChars l` is not whitespace. -/
lemma trimChars_getLast_not_ws {l : List Char} {c : Char}
    (h : (trimChars l).getLast? = some c) : jsWs c = false := by
  unfold trimChars at h
  rw [List.getLast?_reverse] at h
  exact head_dropWhile_ws h

/-- The first character of `trimChars l` is not whitespace. -/
lemma trimChars_head_not_ws {l : List Char} {c : Char}
    (h : (trimChars l).head? = some c) : jsWs c = false := by
  unfold trimChars at h
  rw [List.head?_reverse] at h
  have hsfx : (l.dropWhile jsWs).reverse.dropWhile jsWs <:+ (l.dropWhile jsWs).reverse :=
    List.dropWhile_suffix jsWs
  obtain ⟨t, ht⟩ := hsfx
  have hne : (l.dropWhile jsWs).reverse.dropWhile jsWs ≠ [] := by
    intro hnil
    rw [hnil] at h
    simp at h
  have h2 := List.getLast?_append_of_ne_nil t hne
  rw [ht] at h2
  have h3 : ((l.dropWhile jsWs).reverse).getLast? = some c := h2.trans h
  rw [List.getLast?_reverse] at h3
  exact head_dropWhile_ws h3

/-! ### Each normalization stage fixes an already-normalized string -/

/-- ASCII lowercasing fixes lowercase alphanumerics and the space. -/
lemma toLower_fixed {c : Char} (h : isLowerAlnum c = true ∨ c = ' ') :
    Char.toLower c = c := by
  rcases h with h | h
  · simp only [isLowerAlnum, Bool.or_eq_true, Bool.and_eq_true, decide_eq_true_eq] at h
    simp only [Char.toLower]
    rw [if_neg (by omega)]
  · subst h; decide

/-- Mapping `Char.toLower` over a normalized string is the identity. -/
lemma map_toLower_fixed {l : List Char}
    (h : ∀ c ∈ l, isLowerAlnum c = true ∨ c = ' ') : l.map Char.toLower = l := by
  induction l with
  | nil => rfl
  | cons a t ih =>
    simp only [List.map_cons]
    rw [toLower_fixed (h a (List.mem_cons_self _ _)),
      ih fun c hc => h c (List.mem_cons_of_mem _ hc)]

/-- The replacement step fixes a normalized string. -/
lemma replaceSpecial_fixed {l : List Char}
    (h : ∀ c ∈ l, isLowerAlnum c = true ∨ c = ' ') : replaceSpecial l = l := by
  induction l with
  | nil => rfl
  | cons a t ih =>
    simp only [replaceSpecial, List.map_cons]
    have ha : isAllowed a = true := by
      rcases h a (List.mem_cons_self _ _) with h1 | h1
      · simp [isAllowed, h1]
      · subst h1; decide
    rw [if_pos ha]
    have := ih fun c hc => h c (List.mem_cons_of_mem _ hc)
    simp only [replaceSpecial] at this
    rw [this]

/-- Whitespace collapsing fixes a string whose whitespace characters are
isolated single spaces. -/
lemma collapseWs_fixed {l : List Char}
    (hch : ∀ c ∈ l, isLowerAlnum c = true ∨ c = ' ')
    (hchain : l.Chain' noWsPair) : collapseWs l = l := by
  induction l with
  | nil => rfl
  | cons a t ih =>
    have htail := (List.chain'_cons'.mp hchain).2
    have hrec := ih (fun c hc => hch c (List.mem_cons_of_mem _ hc)) htail
    by_cases hws : jsWs a = true
    · have ha : a = ' ' := by
        rcases hch a (List.mem_cons_self _ _) with h1 | h1
        · rw [isLowerAlnum_not_ws h1] at hws; cases hws
        · exact h1
      have hnx : t.head?.any jsWs = false := by
        cases t with
        | nil => rfl
        | cons b t2 =>
          have hb := (List.chain'_cons'.mp hchain).1 b (by simp)
          rcases hb with h1 | h1
          · rw [hws] at h1; cases h1
          · simp [h1]
      simp only [collapseWs]
      rw [if_pos hws, if_neg (by simp [hnx]), hrec, ha]
    · simp only [collapseWs]
      rw [if_neg hws, hrec]

/-- Trimming fixes a string with no leading and no trailing whitespace. -/
lemma trimChars_fixed {l : List Char}
    (hh : ∀ c, l.head? = some c → jsWs c = false)
    (hl : ∀ c, l.getLast? = some c → jsWs c = false) : trimChars l = l := by
  have h1 : l.dropWhile jsWs = l := by
    cases l with
    | nil => rfl
    | cons a t =>
      rw [List.dropWhile_cons, if_neg (by simp [hh a rfl])]
  unfold trimChars
  rw [h1]
  have h2 : l.reverse.dropWhile jsWs = l.reverse := by
    cases hrev : l.reverse with
    | nil => rfl
    | cons a t =>
      have ha : l.getLast? = some a := by
        rw [← List.head?_reverse, hrev, List.head?_cons]
      rw [List.dropWhile_cons, if_neg (by simp [hl a ha])]
  rw [h2, List.reverse_reverse]

/-- Running the whole pipeline a second time changes nothing. -/
lemma normalizeCore_fixed (l : List Char) :
    normalizeCore (normalizeCore l) = normalizeCore l := by
  have hch : ∀ c ∈ normalizeCore l, isLowerAlnum c = true ∨ c = ' ' :=
    fun c hc => mem_normalizeCore hc
  have hchain : (normalizeCore l).Chain' noWsPair :=
    chain_trimChars (chain_collapseWs _)
  calc normalizeCore (normalizeCore l)
      = trimChars (collapseWs (replaceSpecial ((normalizeCore l).map Char.toLower))) := rfl
    _ = trimChars (collapseWs (replaceSpecial (normalizeCore l))) := by
        rw [map_toLower_fixed hch]
    _ = trimChars (collapseWs (normalizeCore l)) := by rw [replaceSpecial_fixed hch]
    _ = trimChars (normalizeCore l) := by rw [collapseWs_fixed hch hchain]
    _ = normalizeCore l :=
        trimChars_fixed (fun c hc => trimChars_head_not_ws hc)
          (fun c hc => trimChars_getLast_not_ws hc)

/-- C4: `normalizeString` is idempotent: normalizing an already-normalized
string returns it unchanged, for every input string. -/
theorem normalizeString_idempotent (s : List Char) :
    normalizeString (some (normalizeString (some s))) = normalizeString (some s) := by
  by_cases hs : s = []
  · subst hs; rfl
  · simp only [normalizeString, if_neg hs]
    by_cases h0 : normalizeCore s = []
    · rw [if_pos h0, h0]
    · rw [if_neg h0]
      exact normalizeCore_fixed s

/-- C3: the delimiter sequence `"::"` never occurs in a normalized string;
in particular no output of `normalizeString` contains the character `':'`. -/
theorem normalizeString_no_delimiter (s : List Char) :
    (¬ ∃ p q, normalizeString (some s) = p ++ ':' :: ':' :: q) ∧
    ':' ∉ normalizeString (some s) := by
  have hmem := not_colon_mem_normalizeString (some s)
  refine ⟨?_, hmem⟩
  rintro ⟨p, q, hpq⟩
  apply hmem
  rw [hpq]
  simp

/-! ### Splitting on the delimiter -/

/-- `splitOnDD` always returns at least one segment. -/
lemma splitOnDD_ne_nil (l : List Char) : splitOnDD l ≠ [] := by
  cases l with
  | nil => simp [splitOnDD]
  | cons c1 t =>
    cases t with
    | nil => simp [splitOnDD]
    | cons c2 rest =>
      simp only [splitOnDD]
      split
      · simp
      · split <;> simp

/-- A delimiter-free string splits into the single segment it is. -/
lemma splitOnDD_no_colon {l : List Char} (h : ':' ∉ l) : splitOnDD l = [l] := by
  induction l with
  | nil => rfl
  | cons c1 t ih =>
    cases t with
    | nil => rfl
    | cons c2 rest =>
      have hc1 : c1 ≠ ':' := fun hh => h (hh ▸ List.mem_cons_self _ _)
      have ht : ':' ∉ c2 :: rest := fun hh => h (List.mem_cons_of_mem _ hh)
      simp only [splitOnDD]
      rw [if_neg (fun hand => hc1 hand.1), ih ht]

/-- Splitting a delimiter-free segment followed by a delimiter peels off
exactly that segment. -/
lemma splitOnDD_append {a r : List Char} (h : ':' ∉ a) :
    splitOnDD (a ++ ':' :: ':' :: r) = a :: splitOnDD r := by
  induction a with
  | nil =>
    simp [splitOnDD]
  | cons x a2 ih =>
    have hx : x ≠ ':' := fun hh => h (hh ▸ List.mem_cons_self _ _)
    have h2 : ':' ∉ a2 := fun hh => h (List.mem_cons_of_mem _ hh)
    cases ha : a2 ++ ':' :: ':' :: r with
    | nil => exact absurd ha (by simp)
    | cons y ys =>
      rw [List.cons_append, ha]
      simp only [splitOnDD]
      rw [if_neg (fun hand => hx hand.1), ← ha, ih h2]

/-- C1: parsing a generated track id recovers exactly the three normalized
fields (with an absent album read back as the empty string). -/
theorem parseTrackId_generateTrackId (m : TrackMetadata) :
    parseTrackId (generateTrackId m) =
      { artist := normalizeString (some m.artist)
        title := normalizeString (some m.title)
        album := normalizeString (some (jsOrEmpty m.album)) } := by
  have ha := not_colon_mem_normalizeString (some m.artist)
  have ht := not_colon_mem_normalizeString (some m.title)
  have hb := not_colon_mem_normalizeString (some (jsOrEmpty m.album))
  have hform : generateTrackId m =
      normalizeString (some m.artist) ++ ':' :: ':' ::
        (normalizeString (some m.title) ++ ':' :: ':' ::
          normalizeString (some (jsOrEmpty m.album))) := by
    unfold generateTrackId delim
    simp
  have hsplit : splitOnDD (generateTrackId m) =
      [normalizeString (some m.artist), normalizeString (some m.title),
        normalizeString (some (jsOrEmpty m.album))] := by
    rw [hform, splitOnDD_append ha, splitOnDD_append ht, splitOnDD_no_colon hb]
  unfold parseTrackId
  rw [hsplit]
  simp [List.getD]

/-- C9: whenever all three metadata fields normalize to the empty string, the
generated identity is the four-colon string `"::::"`, and on such a
structurally valid value `safeGenerateTrackId` also returns `"::::"` rather
than `null`. -/
theorem generateTrackId_all_empty (m : TrackMetadata)
    (ha : normalizeString (some m.artist) = [])
    (ht : normalizeString (some m.title) = [])
    (hb : normalizeString (some (jsOrEmpty m.album)) = []) :
    generateTrackId m = [':', ':', ':', ':'] ∧
    safeGenerateTrackId (.obj ⟨.str m.artist, .str m.title,
        (match m.album with | some s => JSField.str s | none => JSField.absent)⟩) =
      some [':', ':', ':', ':'] := by
  have hg : generateTrackId m = [':', ':', ':', ':'] := by
    unfold generateTrackId
    rw [ha, ht, hb]
    rfl
  refine ⟨hg, ?_⟩
  cases hal : m.album with
  | none =>
    unfold safeGenerateTrackId
    rw [if_pos (by rfl)]
    simp only [Option.some_inj]
    rw [← hg]
    unfold generateTrackId fieldStr fieldStrOpt
    rw [hal]
  | some s =>
    unfold safeGenerateTrackId
    rw [if_pos (by rfl)]
    simp only [Option.some_inj]
    rw [← hg]
    unfold generateTrackId fieldStr fieldStrOpt
    rw [hal]

/-- Witness for C9 at a concrete punctuation-only metadata value. -/
theorem generateTrackId_all_empty_witness :
    normalizeString (some "!!!".toList) = [] ∧
    normalizeString (some "...".toList) = [] ∧
    normalizeString (some (jsOrEmpty (some "- - -".toList))) = [] ∧
    (generateTrackId ⟨"!!!".toList, "...".toList, some "- - -".toList⟩ =
        [':', ':', ':', ':'] ∧
      safeGenerateTrackId (.obj ⟨.str "!!!".toList, .str "...".toList,
          .str "- - -".toList⟩) = some [':', ':', ':', ':']) := by
  refine ⟨by decide, by decide, by decide, ?_⟩
  exact generateTrackId_all_empty ⟨"!!!".toList, "...".toList, some "- - -".toList⟩
    (by decide) (by decide) (by decide)

/-! ### The track aggregate (`TrackNode`) -/

/-- A JS number: a finite value (modelled as a rational), `NaN`, or one of
the two infinities. -/
inductive JSNumber where
  | nan
  | inf
  | ninf
  | fin (q : ℚ)
deriving DecidableEq

/-- A JS runtime value reaching a `number`-typed parameter: an actual number
or something else (which fails the `typeof x === 'number'` check). -/
inductive JSValue where
  | num (n : JSNumber)
  | nonNum
deriving DecidableEq

/-- JS `isNaN` on a number. -/
def jsIsNaN : JSNumber → Bool
  | .nan => true
  | _ => false

/-- JS `x > 0` on a number (`NaN > 0` is false, `Infinity > 0` is true). -/
def jsGtZero : JSNumber → Bool
  | .inf => true
  | .fin q => decide (0 < q)
  | _ => false

/-- JS `+` on numbers: `NaN` is absorbing, opposite infinities give `NaN`,
an infinity absorbs finite values. -/
def jsAdd : JSNumber → JSNumber → JSNumber
  | .nan, _ => .nan
  | _, .nan => .nan
  | .inf, .ninf => .nan
  | .ninf, .inf => .nan
  | .inf, _ => .inf
  | _, .inf => .inf
  | .ninf, _ => .ninf
  | _, .ninf => .ninf
  | .fin a, .fin b => .fin (a + b)

/-- A `Position3D` argument as it exists at runtime: each coordinate slot
holds some JS value. -/
structure JSPosition where
  x : JSValue
  y : JSValue
  z : JSValue
deriving DecidableEq

/-- The defaulted metadata snapshot a `TrackNode` stores (its `album` is
always a string). -/
structure StoredMetadata where
  artist : List Char
  title : List Char
  album : List Char
deriving DecidableEq

/-- The state of a `TrackNode`: identity, defaulted metadata copy, platform
URI set (as a duplicate-free insertion list), play statistics, position. -/
structure TrackNode where
  universalId : List Char
  metadata : StoredMetadata
  platformUris : List (List Char)
  totalPlays : Nat
  totalPlayTime : JSNumber
  position : JSPosition
deriving DecidableEq

/-- JS `s || fallback` on a string: the empty string is falsy. -/
def jsOrDefault (s fallback : List Char) : List Char :=
  if s = [] then fallback else s

/-- The `TrackNode` constructor: defensive metadata copy with the defaulting
policy (`'Unknown Artist'` / `'Unknown Title'` / `''`), empty URI set, zero
statistics, origin position. -/
def TrackNode.create (universalId : List Char) (metadata : TrackMetadata) : TrackNode :=
  { universalId := universalId
    metadata :=
      { artist := jsOrDefault metadata.artist "Unknown Artist".toList
        title := jsOrDefault metadata.title "Unknown Title".toList
        album := jsOrEmpty metadata.album }
    platformUris := []
    totalPlays := 0
    totalPlayTime := .fin 0
    position := ⟨.num (.fin 0), .num (.fin 0), .num (.fin 0)⟩ }

/-- `Set.prototype.add`: membership-only insertion, duplicates collapse. -/
def setAdd (l : List (List Char)) (s : List Char) : List (List Char) :=
  if s ∈ l then l else l ++ [s]

/-- `TrackNode.addPlatformUri`: accept a non-empty string whose trim is
non-empty; the *untrimmed* string is inserted. Anything else is ignored. -/
def TrackNode.addPlatformUri (node : TrackNode) (platformUri : Option (List Char)) :
    TrackNode :=
  match platformUri with
  | some s =>
    if s ≠ [] ∧ trimChars s ≠ [] then
      { node with platformUris := setAdd node.platformUris s }
    else node
  | none => node

/-- `TrackNode.addPlay`: accept a number that is `> 0` and not `NaN`; then
increment the play count and add the duration to the accumulator. -/
def TrackNode.addPlay (node : TrackNode) (msPlayed : JSValue) : TrackNode :=
  match msPlayed with
  | .num n =>
    if jsGtZero n && !jsIsNaN n then
      { node with
          totalPlays := node.totalPlays + 1
          totalPlayTime := jsAdd node.totalPlayTime n }
    else node
  | .nonNum => node

/-- One coordinate check of `setPosition`:
`typeof v === 'number' && !isNaN(v)`. -/
def validCoord : JSValue → Bool
  | .num n => !jsIsNaN n
  | .nonNum => false

/-- `TrackNode.setPosition`: store a copy when all three coordinates pass the
check, else leave the position unchanged (a console warning is the only
effect). -/
def TrackNode.setPosition (node : TrackNode) (newPosition : JSPosition) : TrackNode :=
  if validCoord newPosition.x && validCoord newPosition.y && validCoord newPosition.z then
    { node with position := newPosition }
  else node

/-- C6: the constructor stores a defaulted metadata copy: empty artist
becomes `"Unknown Artist"`, empty title becomes `"Unknown Title"`, the album
defaults to the empty string and is never sentineled; and the stored
metadata is a function of the construction-time field values only, so later
changes to the caller's object cannot affect it. -/
theorem trackNode_create_metadata (uid : List Char) (md : TrackMetadata) :
    (TrackNode.create uid md).metadata.artist =
      (if md.artist = [] then "Unknown Artist".toList else md.artist) ∧
    (TrackNode.create uid md).metadata.title =
      (if md.title = [] then "Unknown Title".toList else md.title) ∧
    (TrackNode.create uid md).metadata.album = jsOrEmpty md.album ∧
    (md.album = none ∨ md.album = some [] →
      (TrackNode.create uid md).metadata.album = []) ∧
    (∀ md2 : TrackMetadata, md2.artist = md.artist → md2.title = md.title →
      md2.album = md.album → TrackNode.create uid md2 = TrackNode.create uid md) := by
  refine ⟨rfl, rfl, rfl, ?_, ?_⟩
  · rintro (h | h) <;> simp [TrackNode.create, jsOrEmpty, h]
  · intro md2 h1 h2 h3
    simp [TrackNode.create, h1, h2, h3]

/-- Witness for C6 at the all-empty metadata value. -/
theorem trackNode_create_metadata_witness :
    (TrackNode.create [] ⟨[], [], none⟩).metadata.artist = "Unknown Artist".toList ∧
    (TrackNode.create [] ⟨[], [], none⟩).metadata.title = "Unknown Title".toList ∧
    (TrackNode.create [] ⟨[], [], none⟩).metadata.album = [] ∧
    TrackNode.create [] ⟨[], [], none⟩ = TrackNode.create [] ⟨[], [], none⟩ := by
  have h := trackNode_create_metadata [] ⟨[], [], none⟩
  exact ⟨by rw [h.1]; rfl, by rw [h.2.1]; rfl, h.2.2.2.1 (Or.inl rfl),
    h.2.2.2.2 ⟨[], [], none⟩ rfl rfl rfl⟩

/-- A string containing a non-whitespace character does not trim to the
empty string. -/
lemma trimChars_ne_nil_of_non_ws {s : List Char} (h : ∃ c ∈ s, jsWs c = false) :
    trimChars s ≠ [] := by
  intro hnil
  obtain ⟨c, hc, hcws⟩ := h
  have hall : ∀ x ∈ (s.dropWhile jsWs).reverse, jsWs x = true := by
    unfold trimChars at hnil
    rw [List.reverse_eq_nil_iff, List.dropWhile_eq_nil_iff] at hnil
    exact hnil
  have hsplit := List.takeWhile_append_dropWhile jsWs s
  rw [← hsplit, List.mem_append] at hc
  rcases hc with hc | hc
  · rw [List.mem_takeWhile_imp hc] at hcws; cases hcws
  · rw [hall c (List.mem_reverse.mpr hc)] at hcws; cases hcws

/-- C10: an accepted URI (one with at least one non-whitespace character) is
stored exactly as given — untrimmed — and it is the only string the call can
add to the collection. -/
theorem addPlatformUri_stores_exact (node : TrackNode) (s : List Char)
    (h : ∃ c ∈ s, jsWs c = false) :
    s ∈ (node.addPlatformUri (some s)).platformUris ∧
    (∀ u, u ∈ (node.addPlatformUri (some s)).platformUris ↔
      u ∈ node.platformUris ∨ u = s) := by
  have hs : s ≠ [] := by
    rintro rfl
    simp at h
  have htrim : trimChars s ≠ [] := trimChars_ne_nil_of_non_ws h
  have hred : node.addPlatformUri (some s) =
      { node with platformUris := setAdd node.platformUris s } := by
    simp only [TrackNode.addPlatformUri]
    rw [if_pos ⟨hs, htrim⟩]
  rw [hred]
  unfold setAdd
  by_cases hmem : s ∈ node.platformUris
  · rw [if_pos hmem]
    exact ⟨hmem, fun u =>
      ⟨Or.inl, fun h2 => h2.elim id fun he => he ▸ hmem⟩⟩
  · rw [if_neg hmem]
    constructor
    · simp
    · intro u
      simp [List.mem_append]

/-- Witness for C10: `"x"` and `" x"` (differing only in leading whitespace)
end up as two distinct members. -/
theorem addPlatformUri_stores_exact_witness :
    "x".toList ∈
      (((TrackNode.create [] ⟨[], [], none⟩).addPlatformUri
            (some "x".toList)).addPlatformUri (some " x".toList)).platformUris ∧
    " x".toList ∈
      (((TrackNode.create [] ⟨[], [], none⟩).addPlatformUri
            (some "x".toList)).addPlatformUri (some " x".toList)).platformUris ∧
    "x".toList ≠ " x".toList := by
  have h1 := addPlatformUri_stores_exact (TrackNode.create [] ⟨[], [], none⟩)
    "x".toList ⟨'x', by decide⟩
  have h2 := addPlatformUri_stores_exact
    ((TrackNode.create [] ⟨[], [], none⟩).addPlatformUri (some "x".toList))
    " x".toList ⟨'x', by decide⟩
  exact ⟨(h2.2 _).mpr (Or.inl h1.1), h2.1, by decide⟩

/-- C2 (code evaluation at the failing input): `addPlay(Infinity)` is
*accepted* — the play count increments and the accumulator becomes
`Infinity` — although the spec says non-finite inputs must be ignored.  The
guard checks `!isNaN(msPlayed)` where the documented intent (and the draft
doc comment: only positive, *finite* numbers) requires finiteness. -/
theorem addPlay_accepts_infinity :
    ((TrackNode.create [] ⟨[], [], none⟩).addPlay (.num .inf)).totalPlays = 1 ∧
    ((TrackNode.create [] ⟨[], [], none⟩).addPlay (.num .inf)).totalPlayTime = .inf ∧
    (TrackNode.create [] ⟨[], [], none⟩).totalPlays = 0 ∧
    (TrackNode.create [] ⟨[], [], none⟩).totalPlayTime = .fin 0 :=
  ⟨rfl, rfl, rfl, rfl⟩

/-- C5 (code evaluation at the failing input): `setPosition` *accepts* a
position with an infinite coordinate — the stored position changes from the
origin to the infinite one — although the spec requires all coordinates to
be finite.  The guard checks `!isNaN` per coordinate, not finiteness. -/
theorem setPosition_accepts_infinity :
    ((TrackNode.create [] ⟨[], [], none⟩).setPosition
        ⟨.num .inf, .num (.fin 0), .num (.fin 0)⟩).position =
      ⟨.num .inf, .num (.fin 0), .num (.fin 0)⟩ ∧
    (TrackNode.create [] ⟨[], [], none⟩).position =
      ⟨.num (.fin 0), .num (.fin 0), .num (.fin 0)⟩ :=
  ⟨rfl, rfl⟩

/-! ### Operation sequences on a `TrackNode` -/

/-- One call to a public `TrackNode` operation with an arbitrary argument
(`read` stands for any of the getters, which do not change state). -/
inductive TrackOp where
  | play (msPlayed : JSValue)
  | uri (platformUri : Option (List Char))
  | pos (newPosition : JSPosition)
  | read

/-- Apply one public operation. -/
def TrackNode.applyOp (node : TrackNode) : TrackOp → TrackNode
  | .play v => node.addPlay v
  | .uri u => node.addPlatformUri u
  | .pos p => node.setPosition p
  | .read => node

/-- Apply a finite sequence of public operations in order. -/
def TrackNode.runOps (node : TrackNode) (ops : List TrackOp) : TrackNode :=
  ops.foldl TrackNode.applyOp node

/-- JS `a <= b` on numbers (`NaN` compares false against everything). -/
def jsLe : JSNumber → JSNumber → Prop
  | .nan, _ => False
  | _, .nan => False
  | .ninf, _ => True
  | _, .inf => True
  | .fin a, .fin b => a ≤ b
  | .inf, .fin _ => False
  | .inf, .ninf => False
  | .fin _, .ninf => False

/-- The play-time accumulator is never `NaN` and never `-Infinity`. -/
def timeOk (n : JSNumber) : Prop := n ≠ .nan ∧ n ≠ .ninf

lemma jsLe_refl {n : JSNumber} (h : n ≠ .nan) : jsLe n n := by
  cases n with
  | nan => exact absurd rfl h
  | inf => trivial
  | ninf => trivial
  | fin q => exact le_refl q

/-- Adding an accepted play duration (positive finite, or `+Infinity`) to a
well-formed accumulator keeps it well-formed and does not decrease it. -/
lemma jsAdd_accepted {t n : JSNumber} (ht : timeOk t)
    (hn : (jsGtZero n && !jsIsNaN n) = true) :
    timeOk (jsAdd t n) ∧ jsLe t (jsAdd t n) := by
  obtain ⟨ht1, ht2⟩ := ht
  cases n with
  | nan => simp [jsIsNaN] at hn
  | ninf => simp [jsGtZero] at hn
  | inf =>
    cases t with
    | nan => exact absurd rfl ht1
    | ninf => exact absurd rfl ht2
    | inf => exact ⟨⟨by simp [jsAdd], by simp [jsAdd]⟩, by simp [jsAdd, jsLe]⟩
    | fin q => exact ⟨⟨by simp [jsAdd], by simp [jsAdd]⟩, by simp [jsAdd, jsLe]⟩
  | fin q =>
    have hq : 0 < q := by
      simp only [jsGtZero, Bool.and_eq_true, decide_eq_true_eq] at hn
      exact hn.1
    cases t with
    | nan => exact absurd rfl ht1
    | ninf => exact absurd rfl ht2
    | inf => exact ⟨⟨by simp [jsAdd], by simp [jsAdd]⟩, by simp [jsAdd, jsLe]⟩
    | fin p =>
      refine ⟨⟨by simp [jsAdd], by simp [jsAdd]⟩, ?_⟩
      show p ≤ p + q
      linarith

/-- One step neither corrupts the accumulator nor decreases the two
counters. -/
lemma applyOp_mono (node : TrackNode) (op : TrackOp)
    (ht : timeOk node.totalPlayTime) :
    timeOk (node.applyOp op).totalPlayTime ∧
    node.totalPlays ≤ (node.applyOp op).totalPlays ∧
    jsLe node.totalPlayTime (node.applyOp op).totalPlayTime := by
  have hrefl := jsLe_refl ht.1
  cases op with
  | read => exact ⟨ht, le_refl _, hrefl⟩
  | pos p =>
    simp only [TrackNode.applyOp, TrackNode.setPosition]
    split
    · exact ⟨ht, le_refl _, hrefl⟩
    · exact ⟨ht, le_refl _, hrefl⟩
  | uri u =>
    simp only [TrackNode.applyOp, TrackNode.addPlatformUri]
    cases u with
    | none => exact ⟨ht, le_refl _, hrefl⟩
    | some s =>
      simp only
      split
      · exact ⟨ht, le_refl _, hrefl⟩
      · exact ⟨ht, le_refl _, hrefl⟩
  | play v =>
    simp only [TrackNode.applyOp, TrackNode.addPlay]
    cases v with
    | nonNum => exact ⟨ht, le_refl _, hrefl⟩
    | num n =>
      simp only
      by_cases hacc : (jsGtZero n && !jsIsNaN n) = true
      · rw [if_pos hacc]
        have := jsAdd_accepted ht hacc
        exact ⟨this.1, Nat.le_succ _, this.2⟩
      · rw [if_neg hacc]
        exact ⟨ht, le_refl _, hrefl⟩

/-- The accumulator of any state reachable from a freshly constructed node
is well-formed. -/
lemma timeOk_runOps (node : TrackNode) (ops : List TrackOp)
    (ht : timeOk node.totalPlayTime) : timeOk (node.runOps ops).totalPlayTime := by
  induction ops generalizing node with
  | nil => exact ht
  | cons op rest ih =>
    exact ih (node.applyOp op) (applyOp_mono node op ht).1

/-- C8: along every finite sequence of public operations on a constructed
`TrackNode`, each single call leaves `totalPlays` and `totalPlayTime` at
least as large as before the call. -/
theorem trackNode_counters_monotone (uid : List Char) (md : TrackMetadata)
    (ops : List TrackOp) (op : TrackOp) :
    ((TrackNode.create uid md).runOps ops).totalPlays ≤
      (((TrackNode.create uid md).runOps ops).applyOp op).totalPlays ∧
    jsLe ((TrackNode.create uid md).runOps ops).totalPlayTime
      (((TrackNode.create uid md).runOps ops).applyOp op).totalPlayTime := by
  have ht : timeOk ((TrackNode.create uid md).runOps ops).totalPlayTime :=
    timeOk_runOps _ ops ⟨by simp [TrackNode.create], by simp [TrackNode.create]⟩
  have h := applyOp_mono _ op ht
  exact ⟨h.2.1, h.2.2⟩

/-! ### The streaming-history processor -/

/-- A raw entry of the Spotify extended-streaming-history export (the fields
the processor consults; string-or-null fields are `Option`s). -/
structure SpotifyStreamingHistoryEntry where
  ts : List Char
  ms_played : Option JSNumber
  master_metadata_track_name : Option (List Char)
  master_metadata_album_artist_name : Option (List Char)
  master_metadata_album_album_name : Option (List Char)
  spotify_track_uri : Option (List Char)
deriving DecidableEq

/-- The track URI scheme accepted by the processor. -/
def spotifyTrackScheme : List Char := "spotify:track:".toList

/-- The filter predicate of `processStreamingHistoryFile`:
`entry.spotify_track_uri && entry.spotify_track_uri.startsWith('spotify:track:')`
(a `null` or empty URI is falsy). -/
def keepTrackEntry (entry : SpotifyStreamingHistoryEntry) : Bool :=
  match entry.spotify_track_uri with
  | none => false
  | some s => !s.isEmpty && spotifyTrackScheme.isPrefixOf s

/-- `SpotifyStreamingHistoryProcessor.processStreamingHistoryFile`, applied
to the already-parsed sequence of raw entries: keep exactly the entries that
pass `keepTrackEntry`. -/
def processStreamingHistoryFile (rawEntries : List SpotifyStreamingHistoryEntry) :
    List SpotifyStreamingHistoryEntry :=
  rawEntries.filter keepTrackEntry

lemma isPrefixOf_iff_exists_append (p s : List Char) :
    p.isPrefixOf s = true ↔ ∃ t, s = p ++ t := by
  induction p generalizing s with
  | nil => simp [List.isPrefixOf]
  | cons a p2 ih =>
    cases s with
    | nil => simp [List.isPrefixOf]
    | cons b s2 =>
      simp only [List.isPrefixOf, Bool.and_eq_true, beq_iff_eq, ih, List.cons_append,
        List.cons.injEq]
      constructor
      · rintro ⟨rfl, t, rfl⟩
        exact ⟨t, rfl, rfl⟩
      · rintro ⟨t, rfl, rfl⟩
        exact ⟨rfl, t, rfl⟩

/-- C7: the processor returns exactly the order-preserving subsequence of
raw entries whose `spotify_track_uri` is present, non-empty and starts with
`"spotify:track:"`; an empty input (or one with no qualifying entry, which
the filter characterization covers) yields an empty result. -/
theorem processStreamingHistoryFile_spec
    (rawEntries : List SpotifyStreamingHistoryEntry) :
    processStreamingHistoryFile rawEntries = rawEntries.filter keepTrackEntry ∧
    List.Sublist (processStreamingHistoryFile rawEntries) rawEntries ∧
    (∀ e : SpotifyStreamingHistoryEntry, keepTrackEntry e = true ↔
      ∃ s t, e.spotify_track_uri = some s ∧ s ≠ [] ∧ s = spotifyTrackScheme ++ t) ∧
    processStreamingHistoryFile ([] : List SpotifyStreamingHistoryEntry) = [] := by
  refine ⟨rfl, List.filter_sublist _, ?_, rfl⟩
  intro e
  unfold keepTrackEntry
  cases huri : e.spotify_track_uri with
  | none => simp
  | some s =>
    simp only [Bool.and_eq_true, Bool.not_eq_true', List.isEmpty_eq_false,
      isPrefixOf_iff_exists_append, Option.some_inj]
    constructor
    · rintro ⟨hne, t, rfl⟩
      exact ⟨_, t, rfl, hne, rfl⟩
    · rintro ⟨s2, t, heq, hne, rfl⟩
      cases heq
      exact ⟨hne, t, rfl⟩

end Kora
